import Mathlib

/-!
Verification of the streaming audio analyzer (`main.go` and its two sibling
variants).  The Go code is embedded shallowly: a stereo frame `[2]float64`
becomes `ℝ × ℝ`, slices become lists, and the `Stream` method of each
`analyzerStreamer` variant becomes a pure function from the upstream result
(`n`, `ok`, the contents of the `samples` slice after the upstream call) and
the analyzer state to the returned triple plus the new state.
-/

/-- One interleaved stereo frame: `[2]float64`, left channel first. -/
abbrev Frame := ℝ × ℝ

/-- Semantics of Go's builtin `copy(dst, src)` on slices: the first
`min (len dst) (len src)` elements of `dst` are replaced by those of `src`,
the rest of `dst` is kept. -/
def goCopy {α : Type} (dst src : List α) : List α :=
  src.take (min dst.length src.length) ++ dst.drop (min dst.length src.length)

/-- Sum of squared samples, the accumulator `sum += sample[0]*sample[0]`. -/
def sumSq (xs : List ℝ) : ℝ :=
  (xs.map (fun x => x * x)).sum

/-- The RMS computation `math.Sqrt(sum / float64(len(samples)))`. -/
noncomputable def rmsOf (xs : List ℝ) : ℝ :=
  Real.sqrt (sumSq xs / xs.length)

/-- Largest absolute sample value present in a block (0 for the empty block). -/
noncomputable def maxAbs (xs : List ℝ) : ℝ :=
  xs.foldr (fun x m => max |x| m) 0

/-- The discrete Fourier transform computed by `fft.FFT` (go-dsp), as the
standard unnormalized DFT over the complex numbers. -/
noncomputable def dft (x : List ℂ) : List ℂ :=
  (List.range x.length).map fun k =>
    ∑ j ∈ Finset.range x.length,
      x.getD j 0 * Complex.exp (-(2 * Real.pi * Complex.I) * j * k / x.length)

/-- Magnitudes of the first half of the FFT output:
`magnitudes[i] = sqrt(re^2+im^2)` for `i < len(fftResult)/2`. -/
noncomputable def magnitudesOf (fftResult : List ℂ) : List ℝ :=
  (List.range (fftResult.length / 2)).map fun i => Complex.abs (fftResult.getD i 0)

/-- Accumulator loop of the dominant-frequency search: carries the running
index, current `maxMag` and current `maxIndex`; a strict `mag > maxMag`
comparison updates the pair, exactly as in the Go loop. -/
noncomputable def argmaxAux : List ℝ → ℕ → ℝ → ℕ → ℕ
  | [], _, _, best => best
  | m :: rest, i, maxMag, best =>
      if maxMag < m then argmaxAux rest (i + 1) m i
      else argmaxAux rest (i + 1) maxMag best

/-- Index of the first strictly-largest magnitude, starting from
`maxMag = 0.0, maxIndex = 0` as in the Go code. -/
noncomputable def argmaxGo (l : List ℝ) : ℕ :=
  argmaxAux l 0 0 0

/-- The bin-to-Hz mapping `float64(maxIndex) * sampleRate / float64(count)`
applied to the analysis channel `xs`, with `count = len(samples)`. -/
noncomputable def dominantFreqOf (xs : List ℝ) (rate : ℝ) : ℝ :=
  (argmaxGo (magnitudesOf (dft (xs.map Complex.ofReal))) : ℝ) * rate / xs.length

/-- Configuration constant `sampleRate = 44100` shared by all variants. -/
noncomputable def sampleRate : ℝ := 44100

/-- Configuration constant `bufferSize = 512` of the rms/freq variants. -/
def bufferSize : ℕ := 512

/-- Configuration constant `bufferSize = 2048` of the spectrum variant. -/
def bufferSizeS : ℕ := 2048

/-- Configuration constant `numFrequencyBands = 30` of the spectrum variant. -/
def numFrequencyBands : ℕ := 30

/-- State of the `analyzerStreamer` of `main.go` (and of the first variant in
the unnamed file): internal copy buffer plus the published `rms` and `freq`. -/
structure AnalyzerA where
  buffer : List Frame
  rms : ℝ
  freq : ℝ

/-- State of the spectrum `analyzerStreamer` variant: internal copy buffer
plus the published banded `spectrum`. -/
structure AnalyzerS where
  buffer : List Frame
  spectrum : List ℝ

/-- Result of one `Stream` call: the forwarded `(n, ok)` pair, the contents
of the `samples` slice as delivered downstream, and the new analyzer state. -/
structure StreamOut (σ : Type) where
  n : ℕ
  ok : Bool
  samples : List Frame
  state : σ

/-- The `Stream` method of `main.go`: after the upstream call wrote `n`
frames into `samples` and returned `ok`, the analyzer copies `samples` into
its buffer and computes RMS, FFT magnitudes and the dominant frequency over
the whole `samples` slice (note: over `len(samples)` frames, not `n`).
On `ok = false` it returns immediately. -/
noncomputable def streamA (a : AnalyzerA) (samples : List Frame) (n : ℕ) :
    Bool → StreamOut AnalyzerA
  | false => ⟨n, false, samples, a⟩
  | true =>
      ⟨n, true, samples,
        { buffer := goCopy a.buffer samples
          rms := rmsOf (samples.map Prod.fst)
          freq := dominantFreqOf (samples.map Prod.fst) sampleRate }⟩

/-- The freshly constructed analyzer of `main.go`:
`buffer: make([][2]float64, bufferSize)` and zero-valued `rms`, `freq`. -/
noncomputable def initA : AnalyzerA :=
  ⟨List.replicate bufferSize ((0 : ℝ), (0 : ℝ)), 0, 0⟩

/-- The accessor `getAnalysis` returning the published pair. -/
noncomputable def getAnalysis (a : AnalyzerA) : ℝ × ℝ :=
  (a.rms, a.freq)

/-- Number of FFT bins aggregated into one display band:
`binsPerBand := len(magnitudes) / numFrequencyBands`, clamped up to 1 when
the integer division yields 0.  `M` is the magnitude count, `B` the band
count. -/
def binsPerBand (M B : ℕ) : ℕ :=
  if M / B = 0 then 1 else M / B

/-- Bin indices visited by the inner band loop
`for j := i*binsPerBand; j < (i+1)*binsPerBand && j < len(magnitudes); j++`. -/
def bandBins (M B i : ℕ) : List ℕ :=
  (List.range' (i * binsPerBand M B) (binsPerBand M B)).filter (fun j => j < M)

/-- Value stored into `a.spectrum[i]` by the band-mapping loop: 0 when the
band got no bins (the reset value survives), otherwise the log-compressed
average `((Σ 20*log10(mag+1e-6)) / binCount) / 100` clamped at 0. -/
noncomputable def bandValue (mags : List ℝ) (B i : ℕ) : ℝ :=
  let bins := bandBins mags.length B i
  if bins.length = 0 then 0
  else
    let bandSum := (bins.map (fun j => 20 * Real.logb 10 (mags.getD j 0 + 1e-6))).sum
    let normalizedMag := bandSum / bins.length / 100
    if normalizedMag < 0 then 0 else normalizedMag

/-- The spectrum after the reset and band-mapping loops, before smoothing. -/
noncomputable def rawSpectrum (mags : List ℝ) (B : ℕ) : List ℝ :=
  (List.range B).map (fun i => bandValue mags B i)

/-- Tail of the in-place smoothing loop
`a.spectrum[i] = (a.spectrum[i] + a.spectrum[i-1]*0.5) / 1.5`: because the
loop runs left-to-right over the array it is updating, the left neighbor
read at step `i` is the value just written at step `i-1`; `prev` carries it. -/
noncomputable def smoothAux (prev : ℝ) : List ℝ → List ℝ
  | [] => []
  | v :: rest =>
      let s := (v + prev * 0.5) / 1.5
      s :: smoothAux s rest

/-- The whole smoothing pass: band 0 is written back unchanged (the loop body
only fires for `i > 0`), every later band blends with the already-smoothed
left neighbor. -/
noncomputable def smoothGo : List ℝ → List ℝ
  | [] => []
  | v :: rest => v :: smoothAux v rest

/-- Smoothing as the claim words it: a second, spec-side definition in which
band `i > 0` blends with the left neighbor's value from before the smoothing
pass (its previous value), to be compared with `smoothGo`. -/
noncomputable def smoothSpec (vs : List ℝ) : List ℝ :=
  match vs with
  | [] => []
  | _ :: rest => vs.getD 0 0 :: List.zipWith (fun cur left => (cur + left * 0.5) / 1.5) rest vs

/-- The `Stream` method of the spectrum variant: processes
`processSize = min n bufferSize` frames (the frames actually written, capped
at the nominal buffer size), copies them, computes FFT magnitudes, and when
any magnitude bins exist rebuilds the spectrum from the band mapping followed
by the smoothing pass; with no bins it returns early keeping the spectrum. -/
noncomputable def streamS (a : AnalyzerS) (samples : List Frame) (n : ℕ) :
    Bool → StreamOut AnalyzerS
  | false => ⟨n, false, samples, a⟩
  | true =>
      let processSize := min n bufferSizeS
      let buffer2 := goCopy a.buffer (samples.take processSize)
      let magnitudes := magnitudesOf (dft (((samples.take processSize).map Prod.fst).map Complex.ofReal))
      if magnitudes.length = 0 then ⟨n, true, samples, { a with buffer := buffer2 }⟩
      else
        ⟨n, true, samples,
          { buffer := buffer2
            spectrum := smoothGo (rawSpectrum magnitudes numFrequencyBands) }⟩

/-- The accessor `getSpectrum`: returns a copy of the published spectrum,
which as a pure value is the spectrum itself. -/
noncomputable def getSpectrum (a : AnalyzerS) : List ℝ :=
  a.spectrum

/-- Why a single track can fail: `os.Open` or `mp3.Decode` returned an
error inside `playAndAnalyze`. -/
inductive TrackError where
  | openErr : TrackError
  | decodeErr : TrackError
deriving DecidableEq

/-- Outcome of `playAndAnalyze` for one file, given whether its open and its
decode succeed: the first failing step aborts this track with its error,
otherwise the track plays to completion (`none`). -/
def playAndAnalyze (openOk decodeOk : Bool) : Option TrackError :=
  if !openOk then some TrackError.openErr
  else if !decodeOk then some TrackError.decodeErr
  else none

/-- The playlist loop of `main`: each file is handed to its play function;
a failure is logged (recorded next to the file) and the loop continues with
the next entry, a success is recorded as `none`. -/
def runPlaylist {α : Type} (play : α → Option TrackError) :
    List α → List (α × Option TrackError)
  | [] => []
  | f :: fs =>
      match play f with
      | some e => (f, some e) :: runPlaylist play fs
      | none => (f, none) :: runPlaylist play fs

/-- C3: every `Stream` call of either analyzer variant forwards the upstream
pair `(framesWritten, hasMore)` unchanged and delivers the sample buffer
contents downstream exactly as upstream wrote them. -/
theorem c3_passthrough (a : AnalyzerA) (b : AnalyzerS) (samples : List Frame)
    (n : ℕ) (ok : Bool) :
    (streamA a samples n ok).n = n ∧ (streamA a samples n ok).ok = ok ∧
      (streamA a samples n ok).samples = samples ∧
      (streamS b samples n ok).n = n ∧ (streamS b samples n ok).ok = ok ∧
      (streamS b samples n ok).samples = samples := by
  cases ok
  · exact ⟨rfl, rfl, rfl, rfl, rfl, rfl⟩
  · refine ⟨rfl, rfl, rfl, ?_, ?_, ?_⟩ <;>
      · simp only [streamS]
        split <;> rfl

/-- C4: when upstream reports `hasMore = false`, both analyzer variants
return at once: no transform runs and the whole state, in particular the
published features (`rms`, `freq`, `spectrum`), is exactly as before. -/
theorem c4_skip_on_end (a : AnalyzerA) (b : AnalyzerS) (samples : List Frame)
    (n : ℕ) :
    streamA a samples n false = ⟨n, false, samples, a⟩ ∧
      streamS b samples n false = ⟨n, false, samples, b⟩ :=
  ⟨rfl, rfl⟩

lemma one_le_binsPerBand (M B : ℕ) : 1 ≤ binsPerBand M B := by
  unfold binsPerBand
  rcases Nat.eq_zero_or_pos (M / B) with h | h
  · simp [h]
  · rw [if_neg (by omega)]
    omega

lemma mem_bandBins {M B i j : ℕ} :
    j ∈ bandBins M B i ↔
      i * binsPerBand M B ≤ j ∧ j < i * binsPerBand M B + binsPerBand M B ∧ j < M := by
  simp [bandBins, List.mem_filter, List.mem_range'_1, and_assoc]

/-- C2 counterexample: with the spectrum variant's own sizes, `N = 2048`
frames give `M = 1024` magnitude bins and `B = 30` bands, so
`binsPerBand = 34` and the bands cover only bins `0..1019`: bin 1020 is a
valid magnitude bin that belongs to no band.  The last group does not absorb
the remainder; the remainder bins are skipped. -/
theorem c2_cex :
    (1020 : ℕ) < 1024 ∧ ∀ i, i < 30 → (1020 : ℕ) ∉ bandBins 1024 30 i := by
  decide

/-- C2 (amended): the band loops partition only the first
`B * binsPerBand` magnitude bins: every bin with index below that bound (and
below `M`) lies in exactly one band, and every bin at or beyond it lies in no
band at all — when `B` does not divide `M` (with `M ≥ B`) the trailing
`M mod B` bins are skipped rather than absorbed by the last group. -/
theorem c2_partition_amended (M B : ℕ) :
    (∀ j, j < M → j < B * binsPerBand M B →
      ∃! i, i < B ∧ j ∈ bandBins M B i) ∧
    (∀ j i, B * binsPerBand M B ≤ j → i < B → j ∉ bandBins M B i) := by
  have hb1 : 1 ≤ binsPerBand M B := one_le_binsPerBand M B
  constructor
  · intro j hjM hjB
    refine ⟨j / binsPerBand M B, ⟨?_, ?_⟩, ?_⟩
    · exact (Nat.div_lt_iff_lt_mul (by omega)).mpr (by omega)
    · rw [mem_bandBins]
      have h1 : j / binsPerBand M B * binsPerBand M B ≤ j :=
        Nat.div_mul_le_self j (binsPerBand M B)
      have h2 : j % binsPerBand M B < binsPerBand M B := Nat.mod_lt j (by omega)
      have h3 : binsPerBand M B * (j / binsPerBand M B) + j % binsPerBand M B = j :=
        Nat.div_add_mod j (binsPerBand M B)
      have h4 : binsPerBand M B * (j / binsPerBand M B)
          = j / binsPerBand M B * binsPerBand M B := Nat.mul_comm _ _
      omega
    · rintro i ⟨hiB, hmem⟩
      rw [mem_bandBins] at hmem
      symm
      exact Nat.div_eq_of_lt_le hmem.1 (by rw [Nat.succ_mul]; omega)
  · intro j i hj hiB hmem
    rw [mem_bandBins] at hmem
    have h5 : (i + 1) * binsPerBand M B ≤ B * binsPerBand M B :=
      Nat.mul_le_mul_right (binsPerBand M B) (by omega)
    rw [Nat.succ_mul] at h5
    omega

/-- C2 witness: at the spectrum variant's sizes, bin 5 lies in exactly one
of the 30 bands. -/
theorem c2_partition_amended_w : ∃! i, i < 30 ∧ (5 : ℕ) ∈ bandBins 1024 30 i :=
  (c2_partition_amended 1024 30).1 5 (by decide) (by decide)

/-- C10: `binsPerBand` is clamped up to 1, every bin index a band loop visits
is inside `magnitudes` (the `j < len(magnitudes)` guard), and a band whose
bin range is empty keeps its reset value 0. -/
theorem c10_band_safety (M B i j : ℕ) (mags : List ℝ) :
    1 ≤ binsPerBand M B ∧
      (j ∈ bandBins M B i → j < M) ∧
      (bandBins mags.length B i = [] → bandValue mags B i = 0) := by
  refine ⟨one_le_binsPerBand M B, fun h => (mem_bandBins.mp h).2.2, fun h => ?_⟩
  simp only [bandValue, h]
  simp

/-- C10 witness: band 0 of 30 over 1024 bins visits bin 5, which is indeed
in range; with only 2 magnitude bins for 30 bands, band 5 gets no bins and
its value stays 0. -/
theorem c10_band_safety_w :
    (5 : ℕ) < 1024 ∧ bandValue (List.replicate 2 (0 : ℝ)) 30 5 = 0 :=
  ⟨(c10_band_safety 1024 30 0 5 []).2.1 (by decide),
    (c10_band_safety 2 30 5 0 (List.replicate 2 (0 : ℝ))).2.2 (by decide)⟩

/-- C9: the playlist loop processes every entry exactly once, in order,
pairing each with its own outcome — a failing track is logged and the loop
continues, so any entry whose open and decode succeed is still played no
matter what happened to the entries before it. -/
theorem c9_isolation {α : Type} (play : α → Option TrackError) (files : List α) :
    runPlaylist play files = files.map (fun f => (f, play f)) ∧
      ∀ f ∈ files, play f = none → (f, none) ∈ runPlaylist play files := by
  have hmain : ∀ l : List α, runPlaylist play l = l.map (fun f => (f, play f)) := by
    intro l
    induction l with
    | nil => rfl
    | cons f fs ih =>
        cases hf : play f <;> simp [runPlaylist, hf, ih]
  refine ⟨hmain files, fun f hf hp => ?_⟩
  rw [hmain files]
  exact List.mem_map.mpr ⟨f, hf, by rw [hp]⟩

/-- C9 witness: in a 3-file playlist where file 2's decode fails, the run
logs the decode error against file 2 and files 1 and 3 still play. -/
theorem c9_isolation_w :
    runPlaylist (fun f => playAndAnalyze true (f != 2)) [1, 2, 3]
        = [(1, none), (2, some TrackError.decodeErr), (3, none)] ∧
      ((1 : ℕ), (none : Option TrackError))
          ∈ runPlaylist (fun f => playAndAnalyze true (f != 2)) [1, 2, 3] ∧
      ((3 : ℕ), (none : Option TrackError))
          ∈ runPlaylist (fun f => playAndAnalyze true (f != 2)) [1, 2, 3] :=
  ⟨by rw [(c9_isolation (fun f => playAndAnalyze true (f != 2)) [1, 2, 3]).1]; decide,
    (c9_isolation (fun f => playAndAnalyze true (f != 2)) [1, 2, 3]).2 1 (by decide) (by decide),
    (c9_isolation (fun f => playAndAnalyze true (f != 2)) [1, 2, 3]).2 3 (by decide) (by decide)⟩

lemma getD_of_all_eq {α : Type} (l : List α) (d : α) (h : ∀ z ∈ l, z = d) :
    ∀ j, l.getD j d = d := by
  induction l with
  | nil => intro j; simp
  | cons x t ih =>
      intro j
      cases j with
      | zero => simpa using h x (by simp)
      | succ k =>
          simp only [List.getD_cons_succ]
          exact ih (fun z hz => h z (by simp [hz])) k

lemma dft_all_zero (x : List ℂ) (h : ∀ z ∈ x, z = 0) : ∀ y ∈ dft x, y = 0 := by
  intro y hy
  simp only [dft, List.mem_map] at hy
  obtain ⟨k, _, rfl⟩ := hy
  refine Finset.sum_eq_zero fun j _ => ?_
  rw [getD_of_all_eq x 0 h j, zero_mul]

lemma mags_all_zero (x : List ℂ) (h : ∀ z ∈ x, z = 0) :
    ∀ m ∈ magnitudesOf (dft x), m = 0 := by
  intro m hm
  simp only [magnitudesOf, List.mem_map] at hm
  obtain ⟨i, _, rfl⟩ := hm
  rw [getD_of_all_eq (dft x) 0 (dft_all_zero x h) i]
  simp

lemma argmaxAux_of_forall_le (l : List ℝ) :
    ∀ (i : ℕ) (m : ℝ) (b : ℕ), (∀ x ∈ l, x ≤ m) → argmaxAux l i m b = b := by
  induction l with
  | nil => intro i m b _; rfl
  | cons x t ih =>
      intro i m b h
      have hx : x ≤ m := h x (by simp)
      rw [argmaxAux, if_neg (not_lt.mpr hx)]
      exact ih (i + 1) m b (fun z hz => h z (by simp [hz]))

lemma sumSq_zero (xs : List ℝ) (h : ∀ x ∈ xs, x = 0) : sumSq xs = 0 := by
  refine List.sum_eq_zero fun y hy => ?_
  simp only [List.mem_map] at hy
  obtain ⟨x, hx, rfl⟩ := hy
  rw [h x hx, mul_zero]

lemma silent_features (xs : List ℝ) (rate : ℝ) (h : ∀ x ∈ xs, x = 0) :
    rmsOf xs = 0 ∧ dominantFreqOf xs rate = 0 := by
  constructor
  · rw [rmsOf, sumSq_zero xs h, zero_div, Real.sqrt_zero]
  · have hz : ∀ z ∈ xs.map Complex.ofReal, z = 0 := by
      intro z hz
      simp only [List.mem_map] at hz
      obtain ⟨x, hx, rfl⟩ := hz
      rw [h x hx]; simp
    have hm := mags_all_zero (xs.map Complex.ofReal) hz
    have hidx : argmaxGo (magnitudesOf (dft (xs.map Complex.ofReal))) = 0 :=
      argmaxAux_of_forall_le _ 0 0 0 (fun x hx => le_of_eq (hm x hx))
    rw [dominantFreqOf, hidx]
    simp

/-- C5: an all-zero sample block of any size yields RMS amplitude 0 and
dominant frequency 0, for any sample rate and in particular for the
analyzer's own `sampleRate`-based `Stream` computation. -/
theorem c5_silence (samples : List Frame) (rate : ℝ) (a : AnalyzerA) (n : ℕ)
    (h : ∀ s ∈ samples, s = ((0 : ℝ), (0 : ℝ))) :
    rmsOf (samples.map Prod.fst) = 0 ∧
      dominantFreqOf (samples.map Prod.fst) rate = 0 ∧
      (streamA a samples n true).state.rms = 0 ∧
      (streamA a samples n true).state.freq = 0 := by
  have hx : ∀ x ∈ samples.map Prod.fst, x = 0 := by
    intro x hxm
    simp only [List.mem_map] at hxm
    obtain ⟨s, hs, rfl⟩ := hxm
    rw [h s hs]
  obtain ⟨hr, hf⟩ := silent_features (samples.map Prod.fst) rate hx
  obtain ⟨_, hf2⟩ := silent_features (samples.map Prod.fst) sampleRate hx
  exact ⟨hr, hf, hr, hf2⟩

/-- C5 witness: a two-frame silent block at sample rate 48000. -/
theorem c5_silence_w :
    rmsOf (([((0 : ℝ), (0 : ℝ)), (0, 0)]).map Prod.fst) = 0 ∧
      dominantFreqOf (([((0 : ℝ), (0 : ℝ)), (0, 0)]).map Prod.fst) 48000 = 0 ∧
      (streamA initA [((0 : ℝ), (0 : ℝ)), (0, 0)] 2 true).state.rms = 0 ∧
      (streamA initA [((0 : ℝ), (0 : ℝ)), (0, 0)] 2 true).state.freq = 0 :=
  c5_silence [((0 : ℝ), (0 : ℝ)), (0, 0)] 48000 initA 2 (by simp)

lemma maxAbs_nonneg (xs : List ℝ) : 0 ≤ maxAbs xs := by
  induction xs with
  | nil => exact le_refl 0
  | cons x t ih => exact le_trans ih (le_max_right _ _)

lemma maxAbs_cons (x : ℝ) (t : List ℝ) : maxAbs (x :: t) = max |x| (maxAbs t) := rfl

lemma le_maxAbs_of_mem {x : ℝ} {xs : List ℝ} (h : x ∈ xs) : |x| ≤ maxAbs xs := by
  induction xs with
  | nil => simp at h
  | cons y t ih =>
      rcases List.mem_cons.mp h with rfl | hm
      · exact le_max_left _ _
      · exact le_trans (ih hm) (le_max_right _ _)

lemma maxAbs_le {xs : List ℝ} {c : ℝ} (hc : 0 ≤ c) (h : ∀ x ∈ xs, |x| ≤ c) :
    maxAbs xs ≤ c := by
  induction xs with
  | nil => exact hc
  | cons x t ih =>
      rw [maxAbs_cons]
      exact max_le (h x (by simp)) (ih (fun z hz => h z (by simp [hz])))

lemma sumSq_le (xs : List ℝ) : sumSq xs ≤ xs.length * (maxAbs xs) ^ 2 := by
  induction xs with
  | nil => simp [sumSq]
  | cons x t ih =>
      have h1 : x * x ≤ (maxAbs (x :: t)) ^ 2 := by
        have hx : |x| ≤ maxAbs (x :: t) := le_maxAbs_of_mem (by simp)
        calc x * x = |x| * |x| := (abs_mul_abs_self x).symm
          _ ≤ maxAbs (x :: t) * maxAbs (x :: t) :=
              mul_le_mul hx hx (abs_nonneg x) (maxAbs_nonneg _)
          _ = (maxAbs (x :: t)) ^ 2 := (sq (maxAbs (x :: t))).symm
      have h2 : maxAbs t ≤ maxAbs (x :: t) := le_max_right _ _
      have h3 : (maxAbs t) ^ 2 ≤ (maxAbs (x :: t)) ^ 2 :=
        pow_le_pow_left₀ (maxAbs_nonneg t) h2 2
      have h4 : sumSq (x :: t) = x * x + sumSq t := by simp [sumSq]
      have h5 : (t.length : ℝ) * (maxAbs t) ^ 2 ≤ (t.length : ℝ) * (maxAbs (x :: t)) ^ 2 :=
        mul_le_mul_of_nonneg_left h3 (Nat.cast_nonneg _)
      rw [h4]
      push_cast [List.length_cons]
      nlinarith [ih]

lemma sumSq_const (xs : List ℝ) (A : ℝ) (h : ∀ x ∈ xs, x = A) :
    sumSq xs = xs.length * A ^ 2 := by
  induction xs with
  | nil => simp [sumSq]
  | cons x t ih =>
      have hx : x = A := h x (by simp)
      have h4 : sumSq (x :: t) = x * x + sumSq t := by simp [sumSq]
      rw [h4, hx, ih (fun z hz => h z (by simp [hz]))]
      push_cast [List.length_cons]
      ring

lemma rms_core (xs : List ℝ) :
    rmsOf xs = Real.sqrt (sumSq xs / xs.length) ∧
      0 ≤ rmsOf xs ∧
      rmsOf xs ≤ maxAbs xs ∧
      ((∀ x ∈ xs, |x| ≤ 1) → rmsOf xs ≤ 1) ∧
      ∀ A : ℝ, 0 ≤ A → xs ≠ [] → (∀ x ∈ xs, x = A) → rmsOf xs = A := by
  have hle : rmsOf xs ≤ maxAbs xs := by
    have hdiv : sumSq xs / xs.length ≤ (maxAbs xs) ^ 2 := by
      rcases Nat.eq_zero_or_pos xs.length with h0 | hpos
      · rw [List.length_eq_zero.mp h0]
        simp [sumSq]
        positivity
      · have hlen : (0 : ℝ) < xs.length := by exact_mod_cast hpos
        rw [div_le_iff₀ hlen]
        calc sumSq xs ≤ xs.length * (maxAbs xs) ^ 2 := sumSq_le xs
          _ = (maxAbs xs) ^ 2 * xs.length := by ring
    calc rmsOf xs = Real.sqrt (sumSq xs / xs.length) := rfl
      _ ≤ Real.sqrt ((maxAbs xs) ^ 2) := Real.sqrt_le_sqrt hdiv
      _ = maxAbs xs := Real.sqrt_sq (maxAbs_nonneg xs)
  refine ⟨rfl, Real.sqrt_nonneg _, hle, ?_, ?_⟩
  · intro h
    exact le_trans hle (maxAbs_le zero_le_one h)
  · intro A hA hne h
    have hlen : (xs.length : ℝ) ≠ 0 := by
      exact_mod_cast fun hz => hne (List.length_eq_zero.mp (by exact_mod_cast hz))
    rw [rmsOf, sumSq_const xs A h, mul_comm, mul_div_assoc, div_self hlen, mul_one,
      Real.sqrt_sq hA]

/-- C6: the analyzer's RMS is `sqrt(mean(sample^2))` over the analysis (left)
channel, is nonnegative and bounded by the largest amplitude present in the
block (hence by 1 for normalized input), and a block at constant amplitude
`A ≥ 0` has RMS exactly `A`. -/
theorem c6_rms (samples : List Frame) (a : AnalyzerA) (n : ℕ) :
    (streamA a samples n true).state.rms = rmsOf (samples.map Prod.fst) ∧
      rmsOf (samples.map Prod.fst)
        = Real.sqrt (sumSq (samples.map Prod.fst) / samples.length) ∧
      0 ≤ rmsOf (samples.map Prod.fst) ∧
      rmsOf (samples.map Prod.fst) ≤ maxAbs (samples.map Prod.fst) ∧
      ((∀ s ∈ samples, |s.1| ≤ 1) → rmsOf (samples.map Prod.fst) ≤ 1) ∧
      ∀ A : ℝ, 0 ≤ A → samples ≠ [] → (∀ s ∈ samples, s.1 = A) →
        rmsOf (samples.map Prod.fst) = A := by
  obtain ⟨h1, h2, h3, h4, h5⟩ := rms_core (samples.map Prod.fst)
  refine ⟨rfl, by simpa using h1, h2, h3, ?_, ?_⟩
  · intro h
    refine h4 ?_
    intro x hx
    simp only [List.mem_map] at hx
    obtain ⟨s, hs, rfl⟩ := hx
    exact h s hs
  · intro A hA hne h
    refine h5 A hA (by simpa using hne) ?_
    intro x hx
    simp only [List.mem_map] at hx
    obtain ⟨s, hs, rfl⟩ := hx
    exact h s hs

/-- C6 witness: a two-frame block at constant amplitude 0.5 has RMS exactly
0.5, and it is within the normalized bound 1. -/
theorem c6_rms_w :
    rmsOf (([((1 : ℝ) / 2, (0 : ℝ)), (1 / 2, 0)]).map Prod.fst) = 1 / 2 ∧
      rmsOf (([((1 : ℝ) / 2, (0 : ℝ)), (1 / 2, 0)]).map Prod.fst) ≤ 1 := by
  have h := c6_rms [((1 : ℝ) / 2, (0 : ℝ)), (1 / 2, 0)] initA 2
  have hconst : ∀ s ∈ [((1 : ℝ) / 2, (0 : ℝ)), (1 / 2, 0)], s.1 = 1 / 2 := by
    intro s hs
    simp only [List.mem_cons, List.not_mem_nil, or_false] at hs
    rcases hs with rfl | rfl <;> norm_num
  have hnorm : ∀ s ∈ [((1 : ℝ) / 2, (0 : ℝ)), (1 / 2, 0)], |s.1| ≤ 1 := by
    intro s hs
    simp only [List.mem_cons, List.not_mem_nil, or_false] at hs
    rcases hs with rfl | rfl <;>
      · rw [abs_le]
        constructor <;> norm_num
  exact ⟨h.2.2.2.2.2 (1 / 2) (by norm_num) (by simp) hconst, h.2.2.2.2.1 hnorm⟩

lemma smoothAux_length (vs : List ℝ) : ∀ p : ℝ, (smoothAux p vs).length = vs.length := by
  induction vs with
  | nil => intro p; rfl
  | cons v rest ih => intro p; simp [smoothAux, ih]

lemma smoothAux_getD (vs : List ℝ) : ∀ (p : ℝ) (j : ℕ), j < vs.length →
    (smoothAux p vs).getD j 0 =
      (vs.getD j 0 + (if j = 0 then p else (smoothAux p vs).getD (j - 1) 0) * 0.5) / 1.5 := by
  induction vs with
  | nil => intro p j h; simp at h
  | cons v rest ih =>
      intro p j h
      cases j with
      | zero => simp [smoothAux]
      | succ k =>
          have hk : k < rest.length := by simpa using h
          simp only [smoothAux, List.getD_cons_succ]
          rw [ih ((v + p * 0.5) / 1.5) k hk]
          cases k with
          | zero => simp [smoothAux]
          | succ m =>
              simp only [Nat.succ_sub_one, List.getD_cons_succ]
              simp

/-- C7 counterexample: on the band values `[1, 0, 0]` the code's smoothing
pass gives band 2 the value `1/9` (it blends with band 1's already-smoothed
value `1/3`), while blending with the left neighbor's previous (pre-pass)
value `0` as the claim states would give `0`. -/
theorem c7_cex :
    (smoothGo [(1 : ℝ), 0, 0]).getD 2 0 ≠ (smoothSpec [(1 : ℝ), 0, 0]).getD 2 0 := by
  simp only [smoothGo, smoothAux, smoothSpec, List.zipWith, List.getD_cons_succ,
    List.getD_cons_zero]
  norm_num

/-- C7 (amended): the smoothing pass keeps the band count, leaves band 0
unsmoothed, and for `i > 0` assigns
`new_i = (cur_i + 0.5 * smoothed_{i-1}) / 1.5`, where `smoothed_{i-1}` is the
left neighbor's value already updated by this same left-to-right in-place
pass — not the neighbor's value from before the pass. -/
theorem c7_smoothing_amended (vs : List ℝ) (i : ℕ) :
    (smoothGo vs).length = vs.length ∧
      (0 < vs.length → (smoothGo vs).getD 0 0 = vs.getD 0 0) ∧
      (0 < i → i < vs.length →
        (smoothGo vs).getD i 0
          = (vs.getD i 0 + (smoothGo vs).getD (i - 1) 0 * 0.5) / 1.5) := by
  refine ⟨?_, ?_, ?_⟩
  · cases vs with
    | nil => rfl
    | cons v rest => simp [smoothGo, smoothAux_length]
  · intro h
    cases vs with
    | nil => simp at h
    | cons v rest => simp [smoothGo]
  · intro hi hlen
    cases vs with
    | nil => simp at hlen
    | cons v rest =>
        cases i with
        | zero => simp at hi
        | succ k =>
            have hk : k < rest.length := by simpa using hlen
            simp only [smoothGo, List.getD_cons_succ]
            rw [smoothAux_getD rest v k hk]
            cases k with
            | zero => simp
            | succ m =>
                simp only [Nat.succ_sub_one, List.getD_cons_succ]
                simp

/-- C7 witness: on `[1, 0, 0]`, band 2 is the blend of its own value 0 with
the already-smoothed band 1. -/
theorem c7_smoothing_amended_w :
    (smoothGo [(1 : ℝ), 0, 0]).getD 2 0
        = ((0 : ℝ) + (smoothGo [(1 : ℝ), 0, 0]).getD 1 0 * 0.5) / 1.5 := by
  have h := (c7_smoothing_amended [(1 : ℝ), 0, 0] 2).2.2 (by norm_num) (by simp)
  simpa using h

/-- C1 evaluation at the failing input: upstream writes only `n = 2` frames
into a 4-frame slice whose 2 trailing frames hold leftover amplitude 1.
The code of `main.go` analyzes the whole slice: its RMS is `sqrt(1/2)` (sum
over 4 frames, divisor `len(samples) = 4`), whereas the transform over
exactly the 2 written frames — what the claim requires — gives RMS 0.
The `Stream` computation ignores `n` entirely. -/
theorem c1_full_buffer_eval :
    (streamA initA [((0 : ℝ), (0 : ℝ)), (0, 0), (1, 0), (1, 0)] 2 true).state.rms
        = Real.sqrt (1 / 2) ∧
      rmsOf ((([((0 : ℝ), (0 : ℝ)), (0, 0), (1, 0), (1, 0)]).take 2).map Prod.fst) = 0 ∧
      Real.sqrt (1 / 2) ≠ 0 := by
  refine ⟨?_, ?_, Real.sqrt_ne_zero'.mpr (by norm_num)⟩
  · show rmsOf (([((0 : ℝ), (0 : ℝ)), (0, 0), (1, 0), (1, 0)]).map Prod.fst)
        = Real.sqrt (1 / 2)
    rw [rmsOf]
    norm_num [sumSq]
  · rw [rmsOf]
    norm_num [sumSq]
